import Mathlib

/-!
Verification of `src/columnize_output.py` (repository mikemoto7/columnize_output).

The development shallowly embeds the `columnize_output` function and its
helpers.  Rows are modelled as `List String` (the script's own claims only
concern string fields: `None`-to-empty normalization and `str()` conversion
are identities on strings, and bare-string rows inside a list-of-lists input
are outside the modelled input space).  Input lines are modelled as
single-line strings (no embedded newline characters), so `csv.reader([row])`
yields exactly one parsed row per input string.  Uncaught Python exceptions
and `sys.exit` are modelled with `Except`; the potentially endless render
loop is fuelled, with `none` marking a computation that does not finish.
-/

namespace Columnize

/-- Uncaught Python exceptions and process aborts raised by the script:
`indexError` models an uncaught `IndexError` (e.g. `input_data[0]` on an
empty list, line 160, or `row[index]` out of range, line 259), and
`sysExit c` models `sys.exit(c)` (line 304). -/
inductive PyErr where
  | indexError
  | sysExit (code : Nat)
  deriving DecidableEq, Repr

/-- Value returned by `columnize_output` (line 321, or the early return on
line 195): either `(rc, list-of-lines)` from the normal path, or the literal
`(1, "line 195")` pair from the empty-row-set branch, whose second component
is a bare string rather than a list. -/
inductive PyRet where
  | lines (rc : Nat) (out : List String)
  | msg (rc : Nat) (s : String)
  deriving DecidableEq, Repr

/-- The two list-shaped input kinds accepted by `columnize_output`
(lines 159-165): a list of csv strings, or a list of lists of strings. -/
inductive Input where
  | csvStrings (l : List String)
  | lists (l : List (List String))
  deriving DecidableEq, Repr

/-- Test of the regex `^( +)$` on line 298: one or more blanks and nothing
else.  The captured group is the whole token. -/
def isSpacerTok (t : String) : Bool :=
  !t.data.isEmpty && t.data.all (fun c => c == ' ')

/-- Python `str.ljust(n)`: pad on the right with blanks to length `n`
(unchanged when already at least `n` long). -/
def ljust (s : String) (n : Nat) : String :=
  s ++ String.mk (List.replicate (n - s.length) ' ')

/-- Python `str.rjust(n)`: pad on the left with blanks to length `n`
(unchanged when already at least `n` long). -/
def rjust (s : String) (n : Nat) : String :=
  String.mk (List.replicate (n - s.length) ' ') ++ s

/-- Helper for `pySplitComma`: accumulates the current field while walking
the character list. -/
def pySplitGo : List Char → String → List String
  | [], cur => [cur]
  | c :: rest, cur =>
    if c = ',' then cur :: pySplitGo rest ("") else pySplitGo rest (cur.push c)

/-- Python `justify_cols.split(',')` (line 200): split on every comma, so
`""` gives `[""]` and `"a,,b"` gives `["a","","b"]`. -/
def pySplitComma (s : String) : List String :=
  pySplitGo s.data ("")

/-- States of the csv field scanner modelling Python's `csv.reader` with
the default dialect and `skipinitialspace=True` (line 162). -/
inductive CsvSt where
  | startField
  | inField
  | inQuoted
  | quoteInQuoted
  deriving DecidableEq, Repr

/-- Character-level model of `csv.reader`'s line scan: blanks right after a
delimiter are skipped (`skipinitialspace=True`), a double quote opens a
quoted field in which the delimiter is literal, `""` inside a quoted field
is a literal quote, and text after a closing quote is appended to the field
(non-strict dialect). -/
def csvGo : List Char → CsvSt → String → List String → List String
  | [], _, field, fields => fields ++ [field]
  | c :: rest, .startField, field, fields =>
    if c = ' ' then csvGo rest .startField field fields
    else if c = '"' then csvGo rest .inQuoted field fields
    else if c = ',' then csvGo rest .startField ("") (fields ++ [field])
    else csvGo rest .inField (field.push c) fields
  | c :: rest, .inField, field, fields =>
    if c = ',' then csvGo rest .startField ("") (fields ++ [field])
    else csvGo rest .inField (field.push c) fields
  | c :: rest, .inQuoted, field, fields =>
    if c = '"' then csvGo rest .quoteInQuoted field fields
    else csvGo rest .inQuoted (field.push c) fields
  | c :: rest, .quoteInQuoted, field, fields =>
    if c = '"' then csvGo rest .inQuoted (field.push '"') fields
    else if c = ',' then csvGo rest .startField ("") (fields ++ [field])
    else csvGo rest .inField (field.push c) fields

/-- One parsed row per input line, as produced by `csv.reader([row])` on a
single-line string (lines 161-163).  A completely empty line yields the
zero-field row `[]`, matching `list(csv.reader([""])) == [[]]`. -/
def csvParseLine (line : String) : List String :=
  if line.data = [] then [] else csvGo line.data .startField ("") []

/-- The index sequence `range(start, start+count)` used by the `for` loops
over list indices. -/
def idxList : Nat → Nat → List Nat
  | _, 0 => []
  | s, c + 1 => s :: idxList (s + 1) c

/-- The padding loop on lines 242-243: `while len(row) < n: row.append('')`. -/
def padTo (n : Nat) (row : List String) : List String :=
  row ++ List.replicate (n - row.length) ""

/-- The row-reconciliation scan of lines 205-243: walk the rows by index,
skip one-field rows, initialize `curr_max_num_cols` from the first
non-passthrough row, and on any length mismatch set `rc = 2`, raise the
maximum if exceeded, and right-pad every row of the whole list with empty
strings up to the maximum.  An index beyond the list is skipped (unreachable
from `normalizeRows`, whose index list matches the list length, which the
padding `map` preserves). -/
def normGo : List Nat → List (List String) → Nat → Nat → Nat × Nat × List (List String)
  | [], rows, cm, rc => (rc, cm, rows)
  | i :: rest, rows, cm, rc =>
    match rows.get? i with
    | none => normGo rest rows cm rc
    | some row =>
      if row.length = 1 then normGo rest rows cm rc
      else if cm = 0 then normGo rest rows row.length rc
      else if row.length = cm then normGo rest rows cm rc
      else normGo rest (rows.map (padTo (max row.length cm))) (max row.length cm) 2

/-- Entry point of the reconciliation scan (`for index in
range(len(list_of_lists_of_strings))`, line 205), returning
`(rc, curr_max_num_cols, rows)`. -/
def normalizeRows (rows : List (List String)) : Nat × Nat × List (List String) :=
  normGo (idxList 0 rows.length) rows 0 0

/-- The inner width loop of lines 254-265 for one row: for each
`index in range(curr_max_num_cols)`, read `row[index]` (an out-of-range
index raises `IndexError`), then either append its length when
`len(max_col_widths) < len(row)` or update the entry to the maximum
(`if max_col_widths[index] < len(row[index]): ... = len(row[index])`,
written here as taking the max). -/
def widthsFold (row : List String) : List Nat → List Nat → Except PyErr (List Nat)
  | acc, [] => .ok acc
  | acc, index :: rest =>
    match row.get? index with
    | none => .error .indexError
    | some s =>
      if acc.length < row.length then widthsFold row (acc ++ [s.length]) rest
      else widthsFold row (acc.set index (max (acc.getD index 0) s.length)) rest

/-- The outer width loop of lines 251-265: one-field rows are skipped, the
others feed `widthsFold` over the indices `0 .. curr_max_num_cols - 1`. -/
def widthsLoop (rows : List (List String)) (cm : Nat) (acc : List Nat) :
    Except PyErr (List Nat) :=
  match rows with
  | [] => .ok acc
  | row :: rest =>
    if row.length = 1 then widthsLoop rest cm acc
    else
      match widthsFold row acc (idxList 0 cm) with
      | .error e => .error e
      | .ok acc' => widthsLoop rest cm acc'

/-- The justify padding loop of lines 246-247: `while len(justify_cols_list)
< curr_max_num_cols: justify_cols_list.append(justify_cols_list[-1])` — the
LAST token is repeated, whether or not it is a spacer.  (`split` never
returns an empty list, so the `[-1]` read never fails for real inputs.) -/
def padJustify (tokens : List String) (cm : Nat) : List String :=
  tokens ++ List.replicate (cm - tokens.length) (tokens.getLastD (""))

/-- Fuel bound for the render loop: a terminating run of the `while True`
loop performs at most `len(justify) + len(widths)` iterations (the justify
index strictly advances until it sticks at the last entry, after which every
iteration must consume a column). -/
def renderFuel (justify : List String) (widths : List Nat) : Nat :=
  justify.length + widths.length + 2

/-- The `while True` render loop of lines 285-304 for one row, with the two
`-1`-initialized counters shifted by one (`c` is `curr_col` after the
increment at the top of the iteration, `jj` is `justify_col_curr + 1` before
its conditional increment; the index actually used is `min jj (len-1)`).
Per iteration: break when `curr_col` reaches the width count; append a
single blank when the line is nonempty; then by token: `L`/`R` appends the
field (an out-of-range `row[curr_col]` raises `IndexError`) justified to
`width+1`, a blank run appends itself and decrements `curr_col` (the same
column is consulted again), anything else is `sys.exit(1)`.  `none` means
the fuel ran out — the loop did not finish. -/
def renderLoop (justify : List String) (widths : List Nat) (row : List String) :
    Nat → Nat → Nat → String → Option (Except PyErr String)
  | 0, _, _, _ => none
  | fuel + 1, c, jj, line =>
    if widths.length ≤ c then some (.ok line)
    else
      let line1 := if line = "" then line else line ++ " "
      let jused := min jj (justify.length - 1)
      let tok := justify.getD jused ("")
      if tok = "L" then
        match row.get? c with
        | none => some (.error .indexError)
        | some s =>
          renderLoop justify widths row fuel (c + 1) (jused + 1)
            (line1 ++ ljust s (widths.getD c 0 + 1))
      else if tok = "R" then
        match row.get? c with
        | none => some (.error .indexError)
        | some s =>
          renderLoop justify widths row fuel (c + 1) (jused + 1)
            (line1 ++ rjust s (widths.getD c 0 + 1))
      else if isSpacerTok tok then
        renderLoop justify widths row fuel c (jused + 1) (line1 ++ tok)
      else some (.error (.sysExit 1))

/-- The output loop of lines 271-308: a one-field row is appended verbatim
(`row[0]`), every other row is rendered by the `while True` loop.  The first
failure aborts the whole call with no output (the real process hangs or
exits there), and `none` propagates a non-terminating render. -/
def renderRows (justify : List String) (widths : List Nat) :
    List (List String) → Option (Except PyErr (List String))
  | [] => some (.ok [])
  | row :: rest =>
    if row.length = 1 then
      match renderRows justify widths rest with
      | some (.ok out) => some (.ok (row.headD ("") :: out))
      | other => other
    else
      match renderLoop justify widths row (renderFuel justify widths) 0 0 "" with
      | none => none
      | some (.error e) => some (.error e)
      | some (.ok line) =>
        match renderRows justify widths rest with
        | some (.ok out) => some (.ok (line :: out))
        | other => other

/-- The input dispatch of lines 159-165.  Both branches inspect
`input_data[0]`, which raises `IndexError` on an empty list; a nonempty list
of csv strings is parsed line by line, a nonempty list of lists is used
as-is (aliased, not copied). -/
def rowsOf : Input → Except PyErr (List (List String))
  | .csvStrings [] => .error .indexError
  | .csvStrings (l₀ :: ls) => .ok ((l₀ :: ls).map csvParseLine)
  | .lists [] => .error .indexError
  | .lists (r₀ :: rs) => .ok (r₀ :: rs)

/-- The core function `columnize_output(input_data, justify_cols)` of
lines 141-321 (without the optional file-save side effects): dispatch the
input, return `(1, "line 195")` when the row set is empty (unreachable for
the modelled inputs), reconcile row lengths, pad the justify token list,
compute column widths, and render every row.  `none` marks a call that
never returns because the render loop spins forever. -/
def columnize_output (input : Input) (justify_cols : String) :
    Option (Except PyErr PyRet) :=
  match rowsOf input with
  | .error e => some (.error e)
  | .ok rows =>
    if rows.length = 0 then some (.ok (.msg 1 "line 195"))
    else
      match normalizeRows rows with
      | (rc, cm, rows') =>
        let justify := padJustify (pySplitComma justify_cols) cm
        match widthsLoop rows' cm [] with
        | .error e => some (.error e)
        | .ok widths =>
          match renderRows justify widths rows' with
          | none => none
          | some (.error e) => some (.error e)
          | some (.ok out) => some (.ok (.lines rc out))

/-- Decidable equality for `Except`, so that concrete runs of the model can
be checked by `decide`. -/
instance {ε α : Type} [DecidableEq ε] [DecidableEq α] : DecidableEq (Except ε α) := fun a b =>
  match a, b with
  | .ok a, .ok b =>
    decidable_of_iff (a = b) ⟨fun h => by rw [h], fun h => by cases h; rfl⟩
  | .ok _, .error _ => isFalse (fun h => Except.noConfusion h)
  | .error _, .ok _ => isFalse (fun h => Except.noConfusion h)
  | .error e, .error f =>
    decidable_of_iff (e = f) ⟨fun h => by rw [h], fun h => by cases h; rfl⟩

/-- Statement helper: the output lines of a successful call (empty list for
any failing or non-terminating call). -/
def resultLines (r : Option (Except PyErr PyRet)) : List String :=
  match r with
  | some (.ok (.lines _ out)) => out
  | _ => []

/-- Statement helper: the column widths computed by the width loop (empty
list when the loop raised). -/
def widthsOf (rows : List (List String)) (cm : Nat) : List Nat :=
  match widthsLoop rows cm [] with
  | .ok w => w
  | .error _ => []

/-- The maximum field count over non-passthrough (length `≠ 1`) rows, `0`
when there is none — the column count `C` of the specification. -/
def maxNonPassLen : List (List String) → Nat
  | [] => 0
  | r :: rest =>
    if r.length = 1 then maxNonPassLen rest else max r.length (maxNonPassLen rest)

/-- Number of non-spacer tokens of a justify list: the number of data
columns its traversal consumes. -/
def nsCount (tokens : List String) : Nat :=
  (tokens.filter (fun t => !isSpacerTok t)).length

/-- The render loop diverges from the given start state: no amount of fuel
makes it finish. -/
def RenderDiverges (justify : List String) (widths : List Nat) (row : List String) : Prop :=
  ∀ fuel, renderLoop justify widths row fuel 0 0 "" = none

/-- Modelled from the spec: the justify list the specification predicts,
repeating "the last non-spacer-resolved token" (spec section 3) instead of
the last token.  Used only to compare the spec's padding rule with the
code's `padJustify`. -/
def specPadJustify (tokens : List String) (cm : Nat) : List String :=
  tokens ++ List.replicate (cm - tokens.length)
    ((tokens.filter (fun t => !isSpacerTok t)).getLastD (""))

end Columnize

namespace Columnize

/-- Claim C1: the passthrough law fails when other rows trigger padding.
The claim (and the module docstring, line 56) says a one-field row is
always emitted as its exact text; but the padding pass of lines 239-243
pads every row of the list, so the one-field row becomes a three-field row
and is subsequently width-counted and aligned.  On the failing input the
row containing only the string rendered as that string followed by seven
blanks, not as the string itself. -/
theorem c1_passthrough_destroyed_by_padding :
    columnize_output (.lists [["a","b"],["title"],["c","d","e"]]) ("L,R")
      = some (.ok (.lines 2 ["a       b   ", "title       ", "c       d  e"])) ∧
    (resultLines
        (columnize_output (.lists [["a","b"],["title"],["c","d","e"]]) ("L,R"))).getD 1 ("")
      ≠ "title" := by
  constructor <;> decide

/-- Claim C3: the ragged input with rows of three and two fields completes
with status code 2, the short row is right-padded with one empty-string
field, and the computed per-column widths are 1, 1 and 1. -/
theorem c3_ragged_row_padding :
    columnize_output (.lists [["a","b","c"],["d","e"]]) ("L,R")
      = some (.ok (.lines 2 ["a   b  c", "d   e   "])) ∧
    normalizeRows [["a","b","c"],["d","e"]] = (2, 3, [["a","b","c"],["d","e",""]]) ∧
    widthsLoop [["a","b","c"],["d","e",""]] 3 [] = .ok [1,1,1] := by
  refine ⟨by decide, by decide, by decide⟩

/-- Claim C4 counterexample: the empty-list input does not return status
code 1 — it raises an uncaught IndexError at the `input_data[0]` type
dispatch of line 160; and the one-empty-line input does not fail at all —
the blank line parses to the zero-field row, so the call returns status
code 0 with one (empty) output line, matching the docstring's promise that
blank lines are printed and not ignored. -/
theorem c4_counterexample :
    columnize_output (.lists []) ("L,R") = some (.error .indexError) ∧
    columnize_output (.csvStrings [""]) ("L,R") = some (.ok (.lines 0 [""])) := by
  refine ⟨by decide, by decide⟩

/-- Claim C4 as amended: both empty-list inputs raise IndexError before the
status-1 branch of line 195 is reached, and the one-empty-line input
returns status 0 with the single blank output line. -/
theorem c4_empty_input_behavior :
    columnize_output (.csvStrings []) ("L,R") = some (.error .indexError) ∧
    columnize_output (.lists []) ("L,R") = some (.error .indexError) ∧
    columnize_output (.csvStrings [""]) ("L,R") = some (.ok (.lines 0 [""])) := by
  refine ⟨by decide, by decide, by decide⟩

/-- Claim C5: a justification token that is neither L, nor R, nor a run of
blanks makes the render abort at once through `sys.exit(1)` (line 304),
modelled as the fatal result carrying status 1 and no output lines. -/
theorem c5_invalid_token_aborts :
    columnize_output (.lists [["a","b"],["cc","d"]]) ("L,Q")
      = some (.error (.sysExit 1)) := by decide

/-- Claim C9: the quoted csv line parses with the embedded comma kept as
literal field content and the double quotes stripped, both for the line
parser itself and through the input dispatch. -/
theorem c9_csv_roundtrip :
    csvParseLine ("x,\"y,1\",z") = ["x","y,1","z"] ∧
    rowsOf (.csvStrings ["x,\"y,1\",z"]) = .ok [["x","y,1","z"]] := by
  refine ⟨by decide, by decide⟩

/-- Claim C2 counterexample: with three columns and the two-token spec
whose last token is a spacer, the code repeats the spacer (lines 246-247),
not the last non-spacer token L as the claim states; as a consequence the
render loop never consumes the remaining columns and the whole call fails
to terminate. -/
theorem c2_counterexample :
    padJustify (pySplitComma ("L,   ")) 3 = ["L","   ","   "] ∧
    specPadJustify (pySplitComma ("L,   ")) 3 = ["L","   ","L"] ∧
    (["L","   ","   "] : List String) ≠ ["L","   ","L"] ∧
    columnize_output (.lists [["a","b","c"],["d","e","f"]]) ("L,   ") = none := by
  refine ⟨by decide, by decide, by decide, by decide⟩

/-- Claim C6 counterexample: rendering two columns with a three-blank
spacer between them yields the first column, ONE separator blank, the three
spacer blanks, ANOTHER separator blank, then the second column — seven
blanks between the fields in total — and not the spacer blanks alone as the
claim states (the unconditional separator of lines 289-290 runs on the
spacer iteration and again on the following column's iteration). -/
theorem c6_counterexample :
    columnize_output (.lists [["a","b"],["c","d"]]) ("L,   ,R")
      = some (.ok (.lines 0 ["a       b", "c       d"])) ∧
    ("a       b" : String) ≠ "a " ++ "   " ++ " b" := by
  refine ⟨by decide, by decide⟩

/-- Claim C8 counterexample: on input whose first row has zero fields and
whose second has two, the scan initializes the running maximum to 0 from
the zero-field row, re-initializes it to 2 at the second row without any
mismatch event, and never pads: after normalization the first row — a
non-passthrough row, its length is not 1 — still has 0 fields while C = 2. -/
theorem c8_counterexample :
    normalizeRows [[], ["a","b"]] = (0, 2, [[], ["a","b"]]) ∧
    ((normalizeRows [[], ["a","b"]]).2.2.getD 0 []).length = 0 ∧
    (normalizeRows [[], ["a","b"]]).2.1 = 2 ∧
    (0 : Nat) ≠ 2 ∧ (0 : Nat) ≠ 1 := by
  refine ⟨by decide, by decide, by decide, by decide, by decide⟩

end Columnize

namespace Columnize

/-- Reading with a default at an index known to hold a value gives that
value. -/
theorem getD_eq_of_get? {α : Type} {l : List α} {i : Nat} {a : α} (d : α)
    (h : l.get? i = some a) : l.getD i d = a := by
  rw [List.getD_eq_get?, h]
  rfl

/-- A list is indexable below its length. -/
theorem get?_of_lt {α : Type} {l : List α} {i : Nat} (h : i < l.length) :
    ∃ a, l.get? i = some a := by
  induction l generalizing i with
  | nil => simp at h
  | cons x xs ih =>
    cases i with
    | zero => exact ⟨x, rfl⟩
    | succ j => exact ih (by simpa using h)

/-- The default-read of the last position agrees with `getLastD`. -/
theorem getD_length_sub_one {α : Type} {l : List α} (d : α) (h : l ≠ []) :
    l.getD (l.length - 1) d = l.getLastD d := by
  induction l with
  | nil => exact absurd rfl h
  | cons x xs ih =>
    cases hxs : xs with
    | nil => simp [List.getD]
    | cons y ys =>
      have hne : xs ≠ [] := by simp [hxs]
      have := ih hne
      rw [← hxs]
      have hlen : 0 < xs.length := List.length_pos.mpr hne
      have hstep : (x :: xs).length - 1 = (xs.length - 1) + 1 := by
        simp [List.length_cons]
        omega
      rw [hstep]
      simpa [List.getD, List.getLastD, hxs] using this

/-- Dropping up to a present index exposes that element as the head. -/
theorem drop_eq_cons_of_get? {α : Type} {l : List α} {i : Nat} {a : α}
    (h : l.get? i = some a) : l.drop i = a :: l.drop (i + 1) := by
  induction l generalizing i with
  | nil => simp at h
  | cons x xs ih =>
    cases i with
    | zero => simp at h; simp [h]
    | succ j =>
      have := ih (by simpa using h)
      simpa using this

/-- Non-spacer count of a prepended token. -/
theorem nsCount_cons (t : String) (l : List String) :
    nsCount (t :: l) = (if isSpacerTok t then 0 else 1) + nsCount l := by
  by_cases hsp : isSpacerTok t
  · simp [nsCount, List.filter_cons, hsp]
  · simp [nsCount, List.filter_cons, hsp]
    omega

/-- A blank-run token is not the letter L. -/
theorem isSpacerTok_ne_L {t : String} (h : isSpacerTok t = true) : ¬ t = "L" := by
  intro he
  subst he
  exact absurd h (by decide)

/-- A blank-run token is not the letter R. -/
theorem isSpacerTok_ne_R {t : String} (h : isSpacerTok t = true) : ¬ t = "R" := by
  intro he
  subst he
  exact absurd h (by decide)

/-- Each iteration of the render loop either consumes a data column or
advances the justify pointer, and once the pointer sticks at a final L or R
every iteration consumes a column, so the loop finishes (possibly in an
error) within the stated fuel. -/
theorem renderLoop_total (justify : List String) (widths : List Nat)
    (row : List String)
    (hlast : justify.getLastD ("") = "L" ∨ justify.getLastD ("") = "R") :
    ∀ fuel c jj line, jj ≤ justify.length →
      justify.length - jj + (widths.length - c) < fuel →
      (renderLoop justify widths row fuel c jj line).isSome = true := by
  have hJ : justify ≠ [] := by
    intro he
    subst he
    rcases hlast with h | h <;> exact absurd h (by decide)
  have hJpos : 0 < justify.length := List.length_pos.mpr hJ
  intro fuel
  induction fuel with
  | zero => intro c jj line hjj hf; omega
  | succ fuel ih =>
    intro c jj line hjj hf
    rw [renderLoop]
    by_cases hcw : widths.length ≤ c
    · simp [hcw]
    · simp only [hcw, if_false]
      have hjusedlt : min jj (justify.length - 1) < justify.length := by omega
      have hjused_ge : jj ≤ min jj (justify.length - 1) + 1 := by omega
      by_cases hL : justify.getD (min jj (justify.length - 1)) ("") = "L"
      · simp only [hL, if_true]
        cases hrg : row.get? c with
        | none => simp
        | some s =>
          simp only []
          exact ih (c + 1) (min jj (justify.length - 1) + 1) _ (by omega) (by omega)
      · simp only [hL, if_false]
        by_cases hR : justify.getD (min jj (justify.length - 1)) ("") = "R"
        · simp only [hR, if_true]
          cases hrg : row.get? c with
          | none => simp
          | some s =>
            simp only []
            exact ih (c + 1) (min jj (justify.length - 1) + 1) _ (by omega) (by omega)
        · simp only [hR, if_false]
          by_cases hS : isSpacerTok (justify.getD (min jj (justify.length - 1)) ("")) = true
          · simp only [hS, if_true]
            have hjjlt : jj < justify.length := by
              rcases Nat.lt_or_ge jj justify.length with h | h
              · exact h
              · exfalso
                have hmin : min jj (justify.length - 1) = justify.length - 1 := by omega
                rw [hmin] at hS
                rw [getD_length_sub_one ("") hJ] at hS
                rcases hlast with h | h <;> rw [h] at hS <;> exact absurd hS (by decide)
            have hmin : min jj (justify.length - 1) = jj := by omega
            rw [hmin]
            exact ih c (jj + 1) _ (by omega) (by omega)
          · simp only [hS, if_false]
            simp

end Columnize

namespace Columnize

/-- Once every remaining consultation of the justify list yields a spacer
(the pointer has reached a final blank-run token) while data columns remain,
the render loop repeats the same column forever: the invariant that the
consumed columns plus the non-spacer tokens not yet used equal the total
non-spacer count is preserved by every step, and no step can break out. -/
theorem renderLoop_diverges_aux (justify : List String) (widths : List Nat)
    (row : List String)
    (hvalid : ∀ t ∈ justify, t = "L" ∨ t = "R" ∨ isSpacerTok t = true)
    (hlast : isSpacerTok (justify.getLastD ("")) = true)
    (hN : nsCount justify < widths.length)
    (hrow : nsCount justify ≤ row.length) :
    ∀ fuel c jj line, jj ≤ justify.length →
      c + nsCount (justify.drop jj) = nsCount justify →
      renderLoop justify widths row fuel c jj line = none := by
  have hJ : justify ≠ [] := by
    intro he
    subst he
    exact absurd hlast (by decide)
  have hJpos : 0 < justify.length := List.length_pos.mpr hJ
  intro fuel
  induction fuel with
  | zero => intro c jj line hjj hinv; rfl
  | succ fuel ih =>
    intro c jj line hjj hinv
    have hc : c < widths.length := by omega
    rw [renderLoop]
    simp only [Nat.not_le.mpr hc, if_false]
    rcases Nat.lt_or_ge jj justify.length with hjjlt | hjjge
    · have hmin : min jj (justify.length - 1) = jj := by omega
      obtain ⟨tok, htok⟩ := get?_of_lt hjjlt
      have htokD : justify.getD jj ("") = tok := getD_eq_of_get? ("") htok
      have hdrop : justify.drop jj = tok :: justify.drop (jj + 1) :=
        drop_eq_cons_of_get? htok
      have htokmem : tok ∈ justify := List.get?_mem htok
      rw [hmin, htokD]
      rcases hvalid tok htokmem with hL | hR | hS
      · subst hL
        simp only [if_true]
        have hcons := nsCount_cons "L" (justify.drop (jj + 1))
        rw [hdrop] at hinv
        rw [hcons] at hinv
        have hLns : (if isSpacerTok "L" then 0 else 1) = 1 := by decide
        rw [hLns] at hinv
        have hclt : c < row.length := by omega
        obtain ⟨s, hs⟩ := get?_of_lt hclt
        rw [hs]
        exact ih (c + 1) (jj + 1) _ (by omega) (by omega)
      · subst hR
        have hne : ¬("R" : String) = "L" := by decide
        simp only [hne, if_false, if_true]
        have hcons := nsCount_cons "R" (justify.drop (jj + 1))
        rw [hdrop] at hinv
        rw [hcons] at hinv
        have hRns : (if isSpacerTok "R" then 0 else 1) = 1 := by decide
        rw [hRns] at hinv
        have hclt : c < row.length := by omega
        obtain ⟨s, hs⟩ := get?_of_lt hclt
        rw [hs]
        exact ih (c + 1) (jj + 1) _ (by omega) (by omega)
      · have hneL : ¬tok = "L" := isSpacerTok_ne_L hS
        have hneR : ¬tok = "R" := isSpacerTok_ne_R hS
        simp only [hneL, hneR, if_false, hS, if_true]
        have hcons := nsCount_cons tok (justify.drop (jj + 1))
        rw [hdrop] at hinv
        rw [hcons] at hinv
        rw [if_pos hS] at hinv
        exact ih c (jj + 1) _ (by omega) (by omega)
    · have hjjeq : jj = justify.length := by omega
      have hmin : min jj (justify.length - 1) = justify.length - 1 := by omega
      have hlastD : justify.getD (justify.length - 1) ("") = justify.getLastD ("") :=
        getD_length_sub_one ("") hJ
      have hneL : ¬justify.getLastD ("") = "L" := isSpacerTok_ne_L hlast
      have hneR : ¬justify.getLastD ("") = "R" := isSpacerTok_ne_R hlast
      rw [hmin, hlastD]
      simp only [hneL, hneR, if_false, hlast, if_true]
      have hinv2 : c + nsCount (justify.drop (justify.length - 1 + 1)) = nsCount justify := by
        have : justify.length - 1 + 1 = justify.length := by omega
        rw [this, List.drop_length]
        rw [hjjeq, List.drop_length] at hinv
        exact hinv
      exact ih c (justify.length - 1 + 1) _ (by omega) hinv2

/-- Claim C10: the column-by-column render loop finishes for every row when
the final token of the resolved justification list is L or R (within the
stated fuel, whatever the row and widths, counting an abort as finishing);
and when the final resolved token is a blank-run spacer while at least one
data column remains once the spacer tail is reached (the justify list's
non-spacer tokens consume fewer columns than there are widths, the row
being long enough that no index error cuts the run short), the loop stops
consuming columns and never finishes, for any amount of fuel. -/
theorem c10_render_termination (justify : List String) (widths : List Nat)
    (row : List String) :
    ((justify.getLastD ("") = "L" ∨ justify.getLastD ("") = "R") →
      (renderLoop justify widths row (renderFuel justify widths) 0 0 ("")).isSome = true) ∧
    ((∀ t ∈ justify, t = "L" ∨ t = "R" ∨ isSpacerTok t = true) →
      isSpacerTok (justify.getLastD ("")) = true →
      nsCount justify < widths.length →
      nsCount justify ≤ row.length →
      RenderDiverges justify widths row) := by
  constructor
  · intro hlast
    exact renderLoop_total justify widths row hlast (renderFuel justify widths) 0 0 ("")
      (Nat.zero_le _) (by simp only [renderFuel]; omega)
  · intro hvalid hlast hN hrow fuel
    exact renderLoop_diverges_aux justify widths row hvalid hlast hN hrow fuel 0 0 ("")
      (Nat.zero_le _) (by simp)

/-- Claim C10 witness: a one-token justify list ending in L finishes on a
one-column row, and the two-token list whose tail is a three-blank spacer
diverges on a two-column table. -/
theorem c10_witness :
    (renderLoop ["L"] [1] ["a"] (renderFuel ["L"] [1]) 0 0 ("")).isSome = true ∧
    RenderDiverges ["L","   "] [1,1] ["a","b"] := by
  constructor
  · exact (c10_render_termination ["L"] [1] ["a"]).1 (Or.inl (by decide))
  · exact (c10_render_termination ["L","   "] [1,1] ["a","b"]).2
      (by decide) (by decide) (by decide) (by decide)

end Columnize

namespace Columnize

/-- Claim C6 as amended: on a non-passthrough row, a spacer token emits the
standard single-blank separator (the line being nonempty at that point)
followed by its literal blank characters, and does not consume a data
column — the next iteration re-consults the same data column, with the
justify pointer advanced by one.  The spacer's blanks are therefore flanked
by the ordinary separators rather than replacing them. -/
theorem c6_spacer_behavior (justify : List String) (widths : List Nat)
    (row : List String) (fuel c jj : Nat) (line : String)
    (hc : c < widths.length) (hline : ¬line = "")
    (hsp : isSpacerTok (justify.getD (min jj (justify.length - 1)) ("")) = true) :
    renderLoop justify widths row (fuel + 1) c jj line
      = renderLoop justify widths row fuel c (min jj (justify.length - 1) + 1)
          ((line ++ " ") ++ justify.getD (min jj (justify.length - 1)) ("")) := by
  rw [renderLoop]
  have hneL := isSpacerTok_ne_L hsp
  have hneR := isSpacerTok_ne_R hsp
  simp only [Nat.not_le.mpr hc, if_false, if_neg hline, hneL, hneR, hsp, if_true]

/-- Claim C6 witness: with tokens L, three-blank spacer, R on a two-column
table, the spacer iteration turns the line containing the first column into
that line plus one separator blank plus the three spacer blanks, and leaves
the current column index at 1. -/
theorem c6_witness :
    renderLoop ["L","   ","R"] [1,1] ["a","b"] 6 1 1 ("a ")
      = renderLoop ["L","   ","R"] [1,1] ["a","b"] 5 1 2 (("a " ++ " ") ++ "   ") := by
  exact c6_spacer_behavior ["L","   ","R"] [1,1] ["a","b"] 5 1 1 ("a ")
    (by decide) (by decide) (by decide)

/-- When the last token of a nonempty list survives the non-spacer filter,
it is also the last element of the filtered list. -/
theorem filter_getLastD_of_last_kept (l : List String) (h : l ≠ [])
    (hns : isSpacerTok (l.getLastD ("")) = false) :
    (l.filter (fun t => !isSpacerTok t)).getLastD ("") = l.getLastD ("") := by
  have hdec := List.dropLast_append_getLast h
  have hlastD : l.getLastD ("") = l.getLast h := by
    conv_lhs => rw [← hdec]
    rw [List.getLastD_concat]
  rw [hlastD]
  have hkeep : (!isSpacerTok (l.getLast h)) = true := by
    rw [hlastD] at hns
    simp [hns]
  calc (l.filter (fun t => !isSpacerTok t)).getLastD ("")
      = ((l.dropLast ++ [l.getLast h]).filter (fun t => !isSpacerTok t)).getLastD ("") := by
        rw [hdec]
    _ = (l.dropLast.filter (fun t => !isSpacerTok t) ++ [l.getLast h]).getLastD ("") := by
        rw [List.filter_append]
        simp [List.filter, hkeep]
    _ = l.getLast h := List.getLastD_concat _ _ _

/-- Claim C2 as amended: the padding of lines 246-247 repeats the LAST
token of the parsed spec, spacer or not; when the last token is not a
spacer this coincides with repeating the last non-spacer token, as the
specification words it.  The concrete six-column example works out as
claimed — the spec parses to six tokens (not five), and the render loop
keeps consulting the final token R once the pointer sticks, so column six
is right-justified. -/
theorem c2_last_token_repeated :
    (∀ (tokens : List String) (cm : Nat),
      tokens ≠ [] → isSpacerTok (tokens.getLastD ("")) = false →
      specPadJustify tokens cm = padJustify tokens cm) ∧
    columnize_output (.lists [["a","bb","c","dd","e","ff"],["x","y","zz","w","vvv","u"]])
        ("L,R,R,L,   ,R")
      = some (.ok (.lines 0 ["a   bb   c dd         e  ff", "x    y  zz w        vvv   u"])) := by
  constructor
  · intro tokens cm hne hns
    unfold specPadJustify padJustify
    rw [filter_getLastD_of_last_kept tokens hne hns]
  · decide

/-- Claim C2 witness: for the two-token list L, R (last token not a
spacer) and four columns, the spec's padding rule and the code's padding
rule produce the same resolved list. -/
theorem c2_witness :
    specPadJustify ["L","R"] 4 = padJustify ["L","R"] 4 := by
  exact c2_last_token_repeated.1 ["L","R"] 4 (by decide) (by decide)

end Columnize

namespace Columnize

/-- Length of a left-justified string that fits in the target width. -/
theorem ljust_length {s : String} {n : Nat} (h : s.length ≤ n) :
    (ljust s n).length = n := by
  unfold ljust
  rw [String.length_append]
  have : (String.mk (List.replicate (n - s.length) ' ')).length
      = n - s.length := by
    rw [String.length_mk, List.length_replicate]
  rw [this]
  omega

/-- Length of a right-justified string that fits in the target width. -/
theorem rjust_length {s : String} {n : Nat} (h : s.length ≤ n) :
    (rjust s n).length = n := by
  unfold rjust
  rw [String.length_append]
  have : (String.mk (List.replicate (n - s.length) ' ')).length
      = n - s.length := by
    rw [String.length_mk, List.length_replicate]
  rw [this]
  omega

/-- A string of positive length is not the empty string. -/
theorem ne_empty_of_length_pos {s : String} (h : 0 < s.length) : ¬s = "" := by
  intro he
  subst he
  simp [String.length] at h

/-- Summing widths plus two equals summing widths plus one, plus the count. -/
theorem sum_map_add_two (l : List Nat) :
    (l.map (fun w => w + 2)).sum = (l.map (fun w => w + 1)).sum + l.length := by
  induction l with
  | nil => rfl
  | cons x xs ih =>
    simp only [List.map_cons, List.sum_cons, ih, List.length_cons]
    omega

/-- An index carrying a value is below the length. -/
theorem lt_length_of_get? {α : Type} {l : List α} {i : Nat} {a : α}
    (h : l.get? i = some a) : i < l.length := by
  induction l generalizing i with
  | nil => simp at h
  | cons x xs ih =>
    cases i with
    | zero => simp
    | succ j =>
      have := ih (by simpa using h)
      simpa using Nat.succ_lt_succ this

/-- Setting an index and reading it back gives the new value. -/
theorem getD_set_self {α : Type} (l : List α) (i : Nat) (a d : α)
    (h : i < l.length) : (l.set i a).getD i d = a := by
  obtain ⟨x, hx⟩ := get?_of_lt h
  have : (l.set i a).get? i = some a := by
    rw [List.get?_set_eq, hx]
    rfl
  exact getD_eq_of_get? d this

/-- Setting one index does not change reads at another. -/
theorem getD_set_other {α : Type} (l : List α) {i j : Nat} (a d : α)
    (h : i ≠ j) : (l.set i a).getD j d = l.getD j d := by
  rw [List.getD_eq_get?, List.getD_eq_get?, List.get?_set_ne a l h]

/-- Membership in a consecutive-index list. -/
theorem mem_idxList {i : Nat} : ∀ (cnt s : Nat), s ≤ i → i < s + cnt →
    i ∈ idxList s cnt := by
  intro cnt
  induction cnt with
  | zero => intro s h1 h2; omega
  | succ c ih =>
    intro s h1 h2
    rcases Nat.eq_or_lt_of_le h1 with he | hlt
    · rw [idxList, he]
      exact List.mem_cons_self _ _
    · rw [idxList]
      exact List.mem_cons_of_mem _ (ih (s + 1) hlt (by omega))

/-- The first width pass over a full-length row from an accumulator still
shorter than the row appends the lengths of the remaining fields. -/
theorem widthsFold_build (row : List String) (C : Nat) (hrow : row.length = C) :
    ∀ (cnt s : Nat) (acc : List Nat), acc.length = s → s + cnt = C →
      widthsFold row acc (idxList s cnt)
        = .ok (acc ++ ((row.drop s).map (fun f => f.length))) := by
  intro cnt
  induction cnt with
  | zero =>
    intro s acc hacc hsc
    have hs : s = C := by omega
    subst hs
    rw [← hrow, List.drop_length]
    simp [idxList, widthsFold]
  | succ c ih =>
    intro s acc hacc hsc
    have hslt : s < row.length := by omega
    obtain ⟨fs, hfs⟩ := get?_of_lt hslt
    rw [idxList]
    have hlt : acc.length < row.length := by omega
    simp only [widthsFold, hfs, if_pos hlt]
    have := ih (s + 1) (acc ++ [fs.length]) (by simp [hacc]) (by omega)
    rw [this]
    have hdrop : row.drop s = fs :: row.drop (s + 1) := drop_eq_cons_of_get? hfs
    rw [hdrop]
    simp

/-- The width pass over a full-length row from a full-length accumulator
takes pointwise maxima and touches nothing below the start index. -/
theorem widthsFold_update (row : List String) (C : Nat) (hrow : row.length = C) :
    ∀ (cnt s : Nat) (acc : List Nat), acc.length = C → s + cnt = C →
      ∃ acc', widthsFold row acc (idxList s cnt) = .ok acc' ∧ acc'.length = C ∧
        (∀ j, j < s → acc'.getD j 0 = acc.getD j 0) ∧
        (∀ j, s ≤ j → j < C → acc'.getD j 0
          = max (acc.getD j 0) ((row.getD j ("")).length)) := by
  intro cnt
  induction cnt with
  | zero =>
    intro s acc hacc hsc
    refine ⟨acc, by simp [idxList, widthsFold], hacc, fun j hj => rfl, ?_⟩
    intro j hj1 hj2
    omega
  | succ c ih =>
    intro s acc hacc hsc
    have hslt : s < row.length := by omega
    obtain ⟨fs, hfs⟩ := get?_of_lt hslt
    rw [idxList]
    have hnlt : ¬acc.length < row.length := by omega
    simp only [widthsFold, hfs, if_neg hnlt]
    have hsacc : s < acc.length := by omega
    obtain ⟨acc', heq, hlen, hlow, hhigh⟩ :=
      ih (s + 1) (acc.set s (max (acc.getD s 0) fs.length))
        (by rw [List.length_set]; exact hacc) (by omega)
    refine ⟨acc', heq, hlen, ?_, ?_⟩
    · intro j hj
      rw [hlow j (by omega), getD_set_other acc _ _ (by omega)]
    · intro j hj1 hj2
      rcases Nat.eq_or_lt_of_le hj1 with he | hlt
      · subst he
        rw [hlow s (by omega), getD_set_self acc s _ 0 hsacc,
          getD_eq_of_get? ("") hfs]
      · rw [hhigh j (by omega) hj2, getD_set_other acc _ _ (by omega)]

end Columnize

namespace Columnize

/-- Running the width loop from a full-length accumulator over rows whose
lengths are all 1 or C succeeds, keeps the length C, never decreases an
entry, and dominates every field length of every length-C row. -/
theorem widthsLoop_full (C : Nat) (hC : 2 ≤ C) :
    ∀ (rows : List (List String)) (acc : List Nat),
      (∀ r ∈ rows, r.length = 1 ∨ r.length = C) → acc.length = C →
      ∃ w, widthsLoop rows C acc = .ok w ∧ w.length = C ∧
        (∀ j, j < C → acc.getD j 0 ≤ w.getD j 0) ∧
        (∀ r ∈ rows, r.length = C → ∀ j, j < C →
          (r.getD j ("")).length ≤ w.getD j 0) := by
  intro rows
  induction rows with
  | nil =>
    intro acc hrows hacc
    exact ⟨acc, rfl, hacc, fun j hj => Nat.le_refl _, by simp⟩
  | cons r rest ih =>
    intro acc hrows hacc
    rcases hrows r (List.mem_cons_self r rest) with h1 | hCr
    · have hne : r.length = 1 := h1
      rw [widthsLoop, if_pos hne]
      obtain ⟨w, heq, hlen, hmono, hdom⟩ :=
        ih acc (fun x hx => hrows x (List.mem_cons_of_mem r hx)) hacc
      refine ⟨w, heq, hlen, hmono, ?_⟩
      intro x hx hxC j hj
      rcases List.mem_cons.mp hx with he | hm
      · subst he
        omega
      · exact hdom x hm hxC j hj
    · have hne : ¬r.length = 1 := by omega
      rw [widthsLoop, if_neg hne]
      obtain ⟨acc₁, heq₁, hlen₁, hlow₁, hhigh₁⟩ :=
        widthsFold_update r C hCr C 0 acc hacc (by omega)
      rw [heq₁]
      obtain ⟨w, heq, hlen, hmono, hdom⟩ :=
        ih acc₁ (fun x hx => hrows x (List.mem_cons_of_mem r hx)) hlen₁
      refine ⟨w, heq, hlen, ?_, ?_⟩
      · intro j hj
        have := hhigh₁ j (Nat.zero_le j) hj
        have hm := hmono j hj
        omega
      · intro x hx hxC j hj
        rcases List.mem_cons.mp hx with he | hm
        · subst he
          have := hhigh₁ j (Nat.zero_le j) hj
          have hm := hmono j hj
          omega
        · exact hdom x hm hxC j hj

/-- Running the width loop from the empty accumulator over rows whose
lengths are all 1 or C, at least one row having length C, succeeds with a
width list of length C that dominates every field length of every length-C
row. -/
theorem widthsLoop_start (C : Nat) (hC : 2 ≤ C) :
    ∀ (rows : List (List String)),
      (∀ r ∈ rows, r.length = 1 ∨ r.length = C) →
      (∃ r, r ∈ rows ∧ r.length = C) →
      ∃ w, widthsLoop rows C [] = .ok w ∧ w.length = C ∧
        (∀ r ∈ rows, r.length = C → ∀ j, j < C →
          (r.getD j ("")).length ≤ w.getD j 0) := by
  intro rows
  induction rows with
  | nil =>
    intro _ hex
    obtain ⟨r, hr, _⟩ := hex
    simp at hr
  | cons r rest ih =>
    intro hrows hex
    rcases hrows r (List.mem_cons_self r rest) with h1 | hCr
    · rw [widthsLoop, if_pos h1]
      have hex' : ∃ x, x ∈ rest ∧ x.length = C := by
        obtain ⟨x, hx, hxC⟩ := hex
        rcases List.mem_cons.mp hx with he | hm
        · subst he
          omega
        · exact ⟨x, hm, hxC⟩
      obtain ⟨w, heq, hlen, hdom⟩ :=
        ih (fun x hx => hrows x (List.mem_cons_of_mem r hx)) hex'
      refine ⟨w, heq, hlen, ?_⟩
      intro x hx hxC j hj
      rcases List.mem_cons.mp hx with he | hm
      · subst he
        omega
      · exact hdom x hm hxC j hj
    · have hne : ¬r.length = 1 := by omega
      rw [widthsLoop, if_neg hne]
      have hbuild := widthsFold_build r C hCr C 0 [] rfl (by omega)
      rw [List.drop_zero] at hbuild
      rw [hbuild]
      have hlenmap : (r.map (fun f => f.length)).length = C := by
        rw [List.length_map, hCr]
      obtain ⟨w, heq, hlen, hmono, hdom⟩ :=
        widthsLoop_full C hC rest (r.map (fun f => f.length))
          (fun x hx => hrows x (List.mem_cons_of_mem r hx)) (by simpa using hlenmap)
      refine ⟨w, by simpa using heq, hlen, ?_⟩
      intro x hx hxC j hj
      rcases List.mem_cons.mp hx with he | hm
      · subst he
        have hjx : j < x.length := by omega
        obtain ⟨fj, hfj⟩ := get?_of_lt hjx
        have hmapj : (x.map (fun f => f.length)).get? j = some fj.length := by
          rw [List.get?_map, hfj]
          rfl
        have h1 : (x.map (fun f => f.length)).getD j 0 = fj.length :=
          getD_eq_of_get? 0 hmapj
        have h2 : x.getD j ("") = fj := getD_eq_of_get? ("") hfj
        have := hmono j hj
        rw [h1] at this
        rw [h2]
        omega
      · exact hdom x hm hxC j hj

end Columnize

namespace Columnize

/-- With a justify list made only of L and R tokens and fields that fit
their column widths, each render iteration appends one separator blank plus
a width+1 segment, so the loop finishes and the final line adds width+2
characters per remaining column to the running line. -/
theorem renderLoop_len_aux (justify : List String) (widths : List Nat)
    (row : List String) (hJ : justify ≠ [])
    (htok : ∀ t ∈ justify, t = "L" ∨ t = "R")
    (hfield : ∀ i, i < widths.length →
      ∃ s, row.get? i = some s ∧ s.length ≤ widths.getD i 0) :
    ∀ fuel c jj line, ¬line = "" → widths.length - c < fuel →
      ∃ line', renderLoop justify widths row fuel c jj line = some (.ok line') ∧
        line'.length = line.length
          + ((widths.drop c).map (fun w => w + 2)).sum := by
  have hJpos : 0 < justify.length := List.length_pos.mpr hJ
  intro fuel
  induction fuel with
  | zero =>
    intro c jj line hline hf
    omega
  | succ fuel ih =>
    intro c jj line hline hf
    rw [renderLoop]
    by_cases hcw : widths.length ≤ c
    · refine ⟨line, by rw [if_pos hcw], ?_⟩
      rw [List.drop_eq_nil_of_le hcw]
      simp
    · rw [if_neg hcw]
      have hc : c < widths.length := by omega
      obtain ⟨wc, hwc⟩ := get?_of_lt hc
      have hwcD : widths.getD c 0 = wc := getD_eq_of_get? 0 hwc
      have hdropw : widths.drop c = wc :: widths.drop (c + 1) :=
        drop_eq_cons_of_get? hwc
      obtain ⟨s, hs, hslen⟩ := hfield c hc
      have hjusedlt : min jj (justify.length - 1) < justify.length := by omega
      obtain ⟨tok, htokg⟩ := get?_of_lt hjusedlt
      have htokD : justify.getD (min jj (justify.length - 1)) ("") = tok :=
        getD_eq_of_get? ("") htokg
      have hsegL : (ljust s (widths.getD c 0 + 1)).length = wc + 1 := by
        rw [hwcD]
        exact ljust_length (by omega)
      have hsegR : (rjust s (widths.getD c 0 + 1)).length = wc + 1 := by
        rw [hwcD]
        exact rjust_length (by omega)
      have hline1 : (if line = "" then line else line ++ " ").length
          = line.length + 1 := by
        rw [if_neg hline, String.length_append]
        rfl
      rcases htok tok (List.get?_mem htokg) with hL | hR
      · subst hL
        simp only [htokD, hs, reduceIte]
        have hnew : ¬((if line = "" then line else line ++ " ")
            ++ ljust s (widths.getD c 0 + 1)) = "" := by
          apply ne_empty_of_length_pos
          rw [String.length_append, hsegL]
          omega
        obtain ⟨line', heq, hlen⟩ :=
          ih (c + 1) (min jj (justify.length - 1) + 1) _ hnew (by omega)
        refine ⟨line', heq, ?_⟩
        rw [hlen, String.length_append, hsegL, hline1, hdropw]
        simp only [List.map_cons, List.sum_cons]
        omega
      · subst hR
        have hRneL : ¬("R" : String) = "L" := by decide
        simp only [htokD, hs, if_neg hRneL, reduceIte]
        have hnew : ¬((if line = "" then line else line ++ " ")
            ++ rjust s (widths.getD c 0 + 1)) = "" := by
          apply ne_empty_of_length_pos
          rw [String.length_append, hsegR]
          omega
        obtain ⟨line', heq, hlen⟩ :=
          ih (c + 1) (min jj (justify.length - 1) + 1) _ hnew (by omega)
        refine ⟨line', heq, ?_⟩
        rw [hlen, String.length_append, hsegR, hline1, hdropw]
        simp only [List.map_cons, List.sum_cons]
        omega

/-- Rendering a fitting row from the start with an all-L-or-R justify list
produces a line whose length is the sum of the widths plus one each, plus
one separator blank between consecutive columns. -/
theorem renderLoop_len (justify : List String) (widths : List Nat)
    (row : List String) (hJ : justify ≠ [])
    (htok : ∀ t ∈ justify, t = "L" ∨ t = "R")
    (hfield : ∀ i, i < widths.length →
      ∃ s, row.get? i = some s ∧ s.length ≤ widths.getD i 0)
    (hW : 0 < widths.length) (fuel : Nat) (hf : widths.length + 1 < fuel) :
    ∃ line', renderLoop justify widths row fuel 0 0 ("") = some (.ok line') ∧
      line'.length = (widths.map (fun w => w + 1)).sum
        + (widths.length - 1) := by
  have hJpos : 0 < justify.length := List.length_pos.mpr hJ
  cases fuel with
  | zero => omega
  | succ fuel =>
    rw [renderLoop]
    rw [if_neg (by omega)]
    obtain ⟨w0, hw0⟩ := get?_of_lt hW
    have hw0D : widths.getD 0 0 = w0 := getD_eq_of_get? 0 hw0
    have hdropw : widths.drop 0 = w0 :: widths.drop 1 := drop_eq_cons_of_get? hw0
    rw [List.drop_zero] at hdropw
    obtain ⟨s, hs, hslen⟩ := hfield 0 hW
    have hmin0 : min 0 (justify.length - 1) = 0 := by omega
    obtain ⟨tok, htokg⟩ := get?_of_lt (show 0 < justify.length by omega)
    have htokD : justify.getD 0 ("") = tok := getD_eq_of_get? ("") htokg
    have hsegL : (ljust s (widths.getD 0 0 + 1)).length = w0 + 1 := by
      rw [hw0D]
      exact ljust_length (by omega)
    have hsegR : (rjust s (widths.getD 0 0 + 1)).length = w0 + 1 := by
      rw [hw0D]
      exact rjust_length (by omega)
    have hsum : (widths.map (fun w => w + 1)).sum
        = (w0 + 1) + ((widths.drop 1).map (fun w => w + 1)).sum := by
      conv_lhs => rw [hdropw]
      simp
    have hsum2 := sum_map_add_two (widths.drop 1)
    have hlen1 : (widths.drop 1).length = widths.length - 1 := by
      rw [List.length_drop]
    rcases htok tok (List.get?_mem htokg) with hL | hR
    · subst hL
      simp only [hmin0, htokD, hs, reduceIte]
      have hnew : ¬(("" : String) ++ ljust s (widths.getD 0 0 + 1)) = "" := by
        apply ne_empty_of_length_pos
        rw [String.length_append, hsegL]
        omega
      obtain ⟨line', heq, hlen⟩ :=
        renderLoop_len_aux justify widths row hJ htok hfield fuel 1 1 _ hnew (by omega)
      refine ⟨line', heq, ?_⟩
      rw [hlen, String.length_append, hsegL, hsum, hsum2]
      have : ("" : String).length = 0 := rfl
      rw [this, hlen1]
      omega
    · subst hR
      have hRneL : ¬("R" : String) = "L" := by decide
      simp only [hmin0, htokD, hs, if_neg hRneL, reduceIte]
      have hnew : ¬(("" : String) ++ rjust s (widths.getD 0 0 + 1)) = "" := by
        apply ne_empty_of_length_pos
        rw [String.length_append, hsegR]
        omega
      obtain ⟨line', heq, hlen⟩ :=
        renderLoop_len_aux justify widths row hJ htok hfield fuel 1 1 _ hnew (by omega)
      refine ⟨line', heq, ?_⟩
      rw [hlen, String.length_append, hsegR, hsum, hsum2]
      have : ("" : String).length = 0 := rfl
      rw [this, hlen1]
      omega

end Columnize

namespace Columnize

/-- Once the running maximum equals the common non-passthrough length C,
the reconciliation scan changes nothing: every row is skipped as a
one-field row or matches the maximum. -/
theorem normGo_uniform_stable (rows : List (List String)) (C : Nat) (hC : 2 ≤ C)
    (hrows : ∀ r ∈ rows, r.length = 1 ∨ r.length = C) :
    ∀ (idxs : List Nat) (rc : Nat), normGo idxs rows C rc = (rc, C, rows) := by
  intro idxs
  induction idxs with
  | nil => intro rc; rfl
  | cons i rest ih =>
    intro rc
    cases hget : rows.get? i with
    | none =>
      simp only [normGo, hget]
      exact ih rc
    | some row =>
      rcases hrows row (List.get?_mem hget) with h1 | hCr
      · simp only [normGo, hget, if_pos h1]
        exact ih rc
      · simp only [normGo, hget, if_neg (show ¬row.length = 1 by omega),
          if_neg (show ¬C = 0 by omega), if_pos hCr]
        exact ih rc

/-- Starting from a running maximum of zero on rows whose lengths are all 1
or C, with a length-C row at one of the remaining indices, the scan ends
with status unchanged, maximum C, and the rows untouched. -/
theorem normGo_uniform_seek (rows : List (List String)) (C : Nat) (hC : 2 ≤ C)
    (hrows : ∀ r ∈ rows, r.length = 1 ∨ r.length = C) :
    ∀ (idxs : List Nat) (rc : Nat),
      (∃ i ∈ idxs, ∃ r, rows.get? i = some r ∧ r.length = C) →
      normGo idxs rows 0 rc = (rc, C, rows) := by
  intro idxs
  induction idxs with
  | nil =>
    intro rc hex
    obtain ⟨i, hi, _⟩ := hex
    simp at hi
  | cons i rest ih =>
    intro rc hex
    cases hget : rows.get? i with
    | none =>
      simp only [normGo, hget]
      apply ih
      obtain ⟨i', hi', r', hr', hrC'⟩ := hex
      rcases List.mem_cons.mp hi' with he | hm
      · subst he
        rw [hget] at hr'
        exact absurd hr' (by simp)
      · exact ⟨i', hm, r', hr', hrC'⟩
    | some row =>
      rcases hrows row (List.get?_mem hget) with h1 | hCr
      · simp only [normGo, hget, if_pos h1]
        apply ih
        obtain ⟨i', hi', r', hr', hrC'⟩ := hex
        rcases List.mem_cons.mp hi' with he | hm
        · subst he
          rw [hget] at hr'
          cases hr'
          omega
        · exact ⟨i', hm, r', hr', hrC'⟩
      · have hne1 : ¬row.length = 1 := by omega
        simp only [normGo, hget, if_neg hne1, reduceIte]
        rw [hCr]
        exact normGo_uniform_stable rows C hC hrows rest rc

/-- Reconciling rows whose non-passthrough lengths already agree is the
identity: status stays 0, the column count is the common length C, and no
row is touched. -/
theorem normalize_uniform (rows : List (List String)) (C : Nat) (hC : 2 ≤ C)
    (hrows : ∀ r ∈ rows, r.length = 1 ∨ r.length = C)
    (hex : ∃ r ∈ rows, r.length = C) :
    normalizeRows rows = (0, C, rows) := by
  obtain ⟨r, hr, hrC⟩ := hex
  obtain ⟨i, hi⟩ := List.get?_of_mem hr
  have hilt : i < rows.length := lt_length_of_get? hi
  apply normGo_uniform_seek rows C hC hrows
  exact ⟨i, mem_idxList rows.length 0 (Nat.zero_le i) (by omega), r, hi, hrC⟩

/-- Rendering uniform rows with an all-L-or-R justify list and dominating
widths: every row succeeds, passthrough rows pass through, and every
length-C row becomes a line of the fixed full width. -/
theorem renderRows_uniform (justify : List String) (widths : List Nat) (C : Nat)
    (hC : 2 ≤ C) (hJ : justify ≠ [])
    (htok : ∀ t ∈ justify, t = "L" ∨ t = "R") (hWC : widths.length = C) :
    ∀ rows, (∀ r ∈ rows, r.length = 1 ∨ r.length = C) →
      (∀ r ∈ rows, r.length = C → ∀ j, j < C →
        (r.getD j ("")).length ≤ widths.getD j 0) →
      ∃ out, renderRows justify widths rows = some (.ok out) ∧
        out.length = rows.length ∧
        ∀ i r, rows.get? i = some r → r.length = C →
          ∃ line, out.get? i = some line ∧
            line.length = (widths.map (fun w => w + 1)).sum + (C - 1) := by
  intro rows
  induction rows with
  | nil =>
    intro _ _
    exact ⟨[], rfl, rfl, by intro i r h; simp at h⟩
  | cons r rest ih =>
    intro hrows hdom
    obtain ⟨out', heq', hlen', hprop'⟩ :=
      ih (fun x hx => hrows x (List.mem_cons_of_mem r hx))
        (fun x hx => hdom x (List.mem_cons_of_mem r hx))
    rcases hrows r (List.mem_cons_self r rest) with h1 | hCr
    · rw [renderRows, if_pos h1, heq']
      refine ⟨r.headD ("") :: out', rfl, by simp [hlen'], ?_⟩
      intro i x hget hxC
      cases i with
      | zero =>
        have hx : r = x := by simpa using hget
        rw [← hx] at hxC
        omega
      | succ i' =>
        have hget' : rest.get? i' = some x := by simpa using hget
        obtain ⟨line, hl1, hl2⟩ := hprop' i' x hget' hxC
        exact ⟨line, by simpa using hl1, hl2⟩
    · have hne : ¬r.length = 1 := by omega
      rw [renderRows, if_neg hne]
      have hfield : ∀ i, i < widths.length →
          ∃ s, r.get? i = some s ∧ s.length ≤ widths.getD i 0 := by
        intro i hiw
        have hir : i < r.length := by omega
        obtain ⟨s, hs⟩ := get?_of_lt hir
        refine ⟨s, hs, ?_⟩
        have := hdom r (List.mem_cons_self r rest) hCr i (by omega)
        rw [getD_eq_of_get? ("") hs] at this
        exact this
      have hW : 0 < widths.length := by omega
      have hfuel : widths.length + 1 < renderFuel justify widths := by
        have : 0 < justify.length := List.length_pos.mpr hJ
        simp only [renderFuel]
        omega
      obtain ⟨line, hleq, hllen⟩ :=
        renderLoop_len justify widths r hJ htok hfield hW
          (renderFuel justify widths) hfuel
      rw [hleq, heq']
      refine ⟨line :: out', rfl, by simp [hlen'], ?_⟩
      intro i x hget hxC
      cases i with
      | zero =>
        refine ⟨line, rfl, ?_⟩
        rw [hllen, hWC]
      | succ i' =>
        have hget' : rest.get? i' = some x := by simpa using hget
        obtain ⟨line', hl1, hl2⟩ := hprop' i' x hget' hxC
        exact ⟨line', by simpa using hl1, hl2⟩

end Columnize

namespace Columnize

/-- Composing the pipeline: when each stage's result is known, so is the
whole call on a nonempty list-of-lists input. -/
theorem columnize_output_lists_eq (r0 : List String) (rs : List (List String))
    (jc : String) (rc cm : Nat) (rows' : List (List String)) (w : List Nat)
    (out : List String)
    (hnorm : normalizeRows (r0 :: rs) = (rc, cm, rows'))
    (hw : widthsLoop rows' cm [] = .ok w)
    (hr : renderRows (padJustify (pySplitComma jc) cm) w rows' = some (.ok out)) :
    columnize_output (.lists (r0 :: rs)) jc = some (.ok (.lines rc out)) := by
  simp only [columnize_output, rowsOf, List.length_cons, Nat.succ_ne_zero,
    if_false, hnorm, hw, hr]

/-- Claim C7: on an input whose non-passthrough rows all have the same
field count C, rendered with the default spec of one L token and one R
token, every rendered non-passthrough line has the same character length —
the sum over the C columns of width+1 plus the C-1 single separator
blanks (the widths being the ones the width loop computes). -/
theorem c7_uniform_line_length (input : List (List String)) (C : Nat)
    (hC : 2 ≤ C) (hrows : ∀ r ∈ input, r.length = 1 ∨ r.length = C)
    (i : Nat) (row : List String) (hi : input.get? i = some row)
    (hlen : row.length = C) :
    ∃ line,
      (resultLines (columnize_output (.lists input) ("L,R"))).get? i = some line ∧
      line.length = ((widthsOf input C).map (fun w => w + 1)).sum + (C - 1) := by
  have hex : ∃ r ∈ input, r.length = C := ⟨row, List.get?_mem hi, hlen⟩
  cases input with
  | nil => simp at hi
  | cons r0 rs =>
    have hnorm := normalize_uniform (r0 :: rs) C hC hrows hex
    have hjeq : padJustify (pySplitComma ("L,R")) C
        = ["L", "R"] ++ List.replicate (C - 2) ("R") := rfl
    have hJne : padJustify (pySplitComma ("L,R")) C ≠ [] := by
      rw [hjeq]
      simp
    have htokLR : ∀ t ∈ padJustify (pySplitComma ("L,R")) C,
        t = "L" ∨ t = "R" := by
      intro t ht
      rw [hjeq] at ht
      rcases List.mem_append.mp ht with hm | hm
      · simp at hm
        tauto
      · exact Or.inr (List.mem_replicate.mp hm).2
    obtain ⟨w, hw, hwlen, hdom⟩ := widthsLoop_start C hC (r0 :: rs) hrows hex
    obtain ⟨out, hout, houtlen, hprop⟩ :=
      renderRows_uniform (padJustify (pySplitComma ("L,R")) C) w C hC hJne
        htokLR hwlen (r0 :: rs) hrows hdom
    have hco := columnize_output_lists_eq r0 rs ("L,R") 0 C (r0 :: rs) w out
      hnorm hw hout
    rw [hco]
    have hwOf : widthsOf (r0 :: rs) C = w := by
      unfold widthsOf
      rw [hw]
    rw [hwOf]
    simp only [resultLines]
    exact hprop i row hi hlen

/-- Claim C7 witness: on the three-row table with rows of lengths 2, 1, 2
and spec with one L and one R token, the first rendered line has length
(2+1) + (2+1) + 1 = 7. -/
theorem c7_witness :
    ((resultLines
        (columnize_output (.lists [["a","bb"],["x"],["cc","d"]]) ("L,R"))).getD 0
      ("")).length = 7 := by
  obtain ⟨line, hget, hlen⟩ :=
    c7_uniform_line_length [["a","bb"],["x"],["cc","d"]] 2 (by omega)
      (by decide) 0 (["a","bb"]) rfl rfl
  rw [getD_eq_of_get? ("") hget, hlen]
  decide

end Columnize

namespace Columnize

/-- Length of a padded row: the target if the row was shorter, otherwise
unchanged. -/
theorem padTo_length (n : Nat) (row : List String) :
    (padTo n row).length = max row.length n := by
  unfold padTo
  rw [List.length_append, List.length_replicate]
  omega

/-- Padding a row that is already original-plus-padding yields the original
plus a longer padding. -/
theorem padTo_append_replicate (n : Nat) (r : List String) (k : Nat) :
    padTo n (r ++ List.replicate k (""))
      = r ++ List.replicate (k + (n - (r.length + k))) ("") := by
  unfold padTo
  rw [List.length_append, List.length_replicate, List.append_assoc,
    ← List.replicate_add]

/-- The non-passthrough maximum of a list extended by one row. -/
theorem maxNonPassLen_concat (l : List (List String)) (r : List String) :
    maxNonPassLen (l ++ [r])
      = if r.length = 1 then maxNonPassLen l
        else max (maxNonPassLen l) r.length := by
  induction l with
  | nil =>
    by_cases h : r.length = 1 <;> simp [maxNonPassLen, h]
  | cons x xs ih =>
    have hstep : maxNonPassLen ((x :: xs) ++ [r])
        = if x.length = 1 then maxNonPassLen (xs ++ [r])
          else max x.length (maxNonPassLen (xs ++ [r])) := by
      rw [List.cons_append]
      rfl
    have hstep2 : maxNonPassLen (x :: xs)
        = if x.length = 1 then maxNonPassLen xs
          else max x.length (maxNonPassLen xs) := rfl
    rw [hstep, ih, hstep2]
    by_cases hx : x.length = 1 <;> by_cases h : r.length = 1 <;>
        simp [hx, h] <;> omega

/-- Taking one more element past a present index appends that element. -/
theorem take_succ_of_get? {α : Type} {l : List α} {s : Nat} {a : α}
    (h : l.get? s = some a) : l.take (s + 1) = l.take s ++ [a] := by
  rw [List.take_succ]
  rw [List.get?_eq_getElem?] at h
  rw [h]
  rfl

/-- The running maximum of the reconciliation scan never decreases. -/
theorem normGo_cm_mono :
    ∀ (idxs : List Nat) (rows : List (List String)) (cm rc : Nat),
      cm ≤ (normGo idxs rows cm rc).2.1 := by
  intro idxs
  induction idxs with
  | nil => intro rows cm rc; exact Nat.le_refl _
  | cons i rest ih =>
    intro rows cm rc
    cases hget : rows.get? i with
    | none =>
      simp only [normGo, hget]
      exact ih rows cm rc
    | some row =>
      by_cases h1 : row.length = 1
      · simp only [normGo, hget, if_pos h1]
        exact ih rows cm rc
      · by_cases h0 : cm = 0
        · simp only [normGo, hget, if_neg h1, if_pos h0]
          subst h0
          exact Nat.zero_le _
        · by_cases heq : row.length = cm
          · simp only [normGo, hget, if_neg h1, if_neg h0, if_pos heq]
            exact ih rows cm rc
          · simp only [normGo, hget, if_neg h1, if_neg h0, if_neg heq]
            exact Nat.le_trans (Nat.le_max_right _ _) (ih _ _ _)

end Columnize

namespace Columnize

/-- Main invariant of the reconciliation scan on inputs without zero-field
rows, carried over the remaining indices from position `s`: every current
row is its original plus empty-string padding; every processed original
non-passthrough row currently holds exactly the running maximum of fields;
status 0 means the rows are untouched; after a padding event (status 2)
every row's length is the maximum of its original length and the running
maximum; a zero running maximum means no event yet and only passthrough
rows processed; and the running maximum equals the non-passthrough maximum
of the processed prefix.  Conclusion: after the scan every original row is
its original plus padding, non-passthrough ones holding exactly the final
maximum, which is the non-passthrough maximum of the whole input. -/
theorem normGo_inv (R : List (List String)) (hne : ∀ r ∈ R, r ≠ []) :
    ∀ (cnt s : Nat) (rowsCur : List (List String)) (cm rc : Nat),
      s + cnt = R.length →
      (∀ j r, R.get? j = some r →
        ∃ k, rowsCur.get? j = some (r ++ List.replicate k (""))) →
      (∀ j r, j < s → R.get? j = some r → r.length ≠ 1 →
        ∃ r', rowsCur.get? j = some r' ∧ r'.length = cm) →
      (rc = 0 → rowsCur = R) →
      (rc = 0 ∨ rc = 2) →
      (rc = 2 → ∀ j r, R.get? j = some r →
        ∃ r', rowsCur.get? j = some r' ∧ r'.length = max r.length cm) →
      (cm = 0 → rc = 0) →
      (cm = 0 → ∀ j r, j < s → R.get? j = some r → r.length = 1) →
      cm = maxNonPassLen (R.take s) →
      (∀ j r, R.get? j = some r →
        ∃ r', (normGo (idxList s cnt) rowsCur cm rc).2.2.get? j = some r' ∧
          (∃ k, r' = r ++ List.replicate k ("")) ∧
          (r.length ≠ 1 →
            r'.length = (normGo (idxList s cnt) rowsCur cm rc).2.1)) ∧
      (normGo (idxList s cnt) rowsCur cm rc).2.1 = maxNonPassLen R := by
  intro cnt
  induction cnt with
  | zero =>
    intro s rowsCur cm rc hs hB hC hD hH hE hF0 hF hG
    have hsR : s = R.length := by omega
    constructor
    · intro j r hget
      have hjlt : j < s := by
        rw [hsR]
        exact lt_length_of_get? hget
      obtain ⟨k, hk⟩ := hB j r hget
      refine ⟨r ++ List.replicate k (""), hk, ⟨k, rfl⟩, ?_⟩
      intro hne1
      obtain ⟨r'', hr'', hlen''⟩ := hC j r hjlt hget hne1
      rw [hk] at hr''
      cases hr''
      exact hlen''
    · have hred : (normGo (idxList s 0) rowsCur cm rc).2.1 = cm := rfl
      rw [hred, hG, hsR, List.take_length]
  | succ cnt ih =>
    intro s rowsCur cm rc hs hB hC hD hH hE hF0 hF hG
    have hsR : s < R.length := by omega
    obtain ⟨r, hr⟩ := get?_of_lt hsR
    have hrne : r ≠ [] := hne r (List.get?_mem hr)
    have hrpos : 0 < r.length := List.length_pos.mpr hrne
    obtain ⟨k, hk⟩ := hB s r hr
    have hrowlen : (r ++ List.replicate k ("")).length = r.length + k := by
      rw [List.length_append, List.length_replicate]
    have hk0_of_rc0 : rc = 0 → k = 0 := by
      intro hrc0
      have hk' := hk
      rw [hD hrc0, hr] at hk'
      injection hk' with hkk
      have := congrArg List.length hkk
      rw [hrowlen] at this
      omega
    by_cases h1 : (r ++ List.replicate k ("")).length = 1
    · have hr1 : r.length = 1 ∧ k = 0 := by omega
      simp only [idxList, normGo, hk, if_pos h1]
      apply ih (s + 1) rowsCur cm rc (by omega) hB ?hC1 hD hH hE hF0 ?hF1 ?hG1
      case hC1 =>
        intro j rj hj hget hne1
        rcases Nat.lt_or_ge j s with hlt | hge
        · exact hC j rj hlt hget hne1
        · have hjs : j = s := by omega
          subst hjs
          rw [hr] at hget
          cases hget
          omega
      case hF1 =>
        intro hcm j rj hj hget
        rcases Nat.lt_or_ge j s with hlt | hge
        · exact hF hcm j rj hlt hget
        · have hjs : j = s := by omega
          subst hjs
          rw [hr] at hget
          cases hget
          omega
      case hG1 =>
        rw [take_succ_of_get? hr, maxNonPassLen_concat, if_pos hr1.1, ← hG]
    · by_cases h0 : cm = 0
      · have hrc0 : rc = 0 := hF0 h0
        have hcur : rowsCur = R := hD hrc0
        have hk0 : k = 0 := hk0_of_rc0 hrc0
        subst hk0
        have hrl_ne1 : r.length ≠ 1 := by omega
        simp only [idxList, normGo, hk, if_neg h1, if_pos h0]
        rw [hrowlen]
        apply ih (s + 1) rowsCur (r.length + 0) rc (by omega) hB ?hC2 hD hH ?hE2
          ?hF02 ?hF2 ?hG2
        case hC2 =>
          intro j rj hj hget hne1
          rcases Nat.lt_or_ge j s with hlt | hge
          · exact absurd (hF h0 j rj hlt hget) hne1
          · have hjs : j = s := by omega
            subst hjs
            rw [hr] at hget
            cases hget
            refine ⟨r, ?_, by omega⟩
            rw [hcur]
            exact hr
        case hE2 =>
          intro h2
          exact absurd (hrc0.symm.trans h2) (by decide)
        case hF02 =>
          intro hc
          exact hrc0
        case hF2 =>
          intro hc
          exact absurd hc (by omega)
        case hG2 =>
          rw [take_succ_of_get? hr, maxNonPassLen_concat, if_neg hrl_ne1, ← hG, h0]
          omega
      · by_cases heq : (r ++ List.replicate k ("")).length = cm
        · have hrk_cm : r.length + k = cm := by
            rw [← hrowlen]
            exact heq
          simp only [idxList, normGo, hk, if_neg h1, if_neg h0, if_pos heq]
          apply ih (s + 1) rowsCur cm rc (by omega) hB ?hC3 hD hH hE hF0 ?hF3 ?hG3
          case hC3 =>
            intro j rj hj hget hne1
            rcases Nat.lt_or_ge j s with hlt | hge
            · exact hC j rj hlt hget hne1
            · have hjs : j = s := by omega
              subst hjs
              rw [hr] at hget
              cases hget
              exact ⟨r ++ List.replicate k (""), hk, heq⟩
          case hF3 =>
            intro hc
            exact absurd hc h0
          case hG3 =>
            rw [take_succ_of_get? hr, maxNonPassLen_concat, ← hG]
            by_cases hrl : r.length = 1
            · rw [if_pos hrl]
            · rw [if_neg hrl]
              omega
        · have hMeq : max (r ++ List.replicate k ("")).length cm
              = max r.length cm := by
            rcases hH with hrc0 | hrc2
            · have hk0 : k = 0 := hk0_of_rc0 hrc0
              subst hk0
              rw [hrowlen]
              omega
            · obtain ⟨r'', hr'', hlen''⟩ := hE hrc2 s r hr
              rw [hk] at hr''
              cases hr''
              rw [hlen'']
              omega
          have hrl_ne1 : r.length ≠ 1 := by
            intro hrl1
            rcases hH with hrc0 | hrc2
            · have hk0 : k = 0 := hk0_of_rc0 hrc0
              subst hk0
              rw [hrowlen] at h1
              omega
            · obtain ⟨r'', hr'', hlen''⟩ := hE hrc2 s r hr
              rw [hk] at hr''
              cases hr''
              rw [hrl1] at hlen''
              have hcm1 : max 1 cm = cm := by omega
              rw [hcm1] at hlen''
              exact heq hlen''
          have hcmM : cm ≤ max (r ++ List.replicate k ("")).length cm :=
            Nat.le_max_right _ _
          simp only [idxList, normGo, hk, if_neg h1, if_neg h0, if_neg heq]
          apply ih (s + 1) (rowsCur.map
              (padTo (max (r ++ List.replicate k ("")).length cm)))
            (max (r ++ List.replicate k ("")).length cm) 2 (by omega)
            ?hB4 ?hC4 ?hD4 (Or.inr rfl) ?hE4 ?hF04 ?hF4 ?hG4
          case hB4 =>
            intro j rj hget
            obtain ⟨kj, hkj⟩ := hB j rj hget
            refine ⟨kj + (max (r ++ List.replicate k ("")).length cm
              - (rj.length + kj)), ?_⟩
            rw [List.get?_map, hkj]
            simp only [Option.map_some']
            rw [padTo_append_replicate]
          case hC4 =>
            intro j rj hj hget hne1
            rcases Nat.lt_or_ge j s with hlt | hge
            · obtain ⟨r', hr', hlen'⟩ := hC j rj hlt hget hne1
              refine ⟨padTo (max (r ++ List.replicate k ("")).length cm) r',
                ?_, ?_⟩
              · rw [List.get?_map, hr']
                rfl
              · rw [padTo_length, hlen']
                omega
            · have hjs : j = s := by omega
              subst hjs
              rw [hr] at hget
              cases hget
              refine ⟨padTo (max (r ++ List.replicate k ("")).length cm)
                (r ++ List.replicate k ("")), ?_, ?_⟩
              · rw [List.get?_map, hk]
                rfl
              · rw [padTo_length]
                omega
          case hD4 =>
            intro h20
            exact absurd h20 (by decide)
          case hE4 =>
            intro _ j rj hget
            obtain ⟨kj, hkj⟩ := hB j rj hget
            refine ⟨padTo (max (r ++ List.replicate k ("")).length cm)
              (rj ++ List.replicate kj ("")), ?_, ?_⟩
            · rw [List.get?_map, hkj]
              rfl
            · rw [padTo_length, List.length_append, List.length_replicate]
              rcases hH with hrc0 | hrc2
              · have hcur : rowsCur = R := hD hrc0
                have hkj' := hkj
                rw [hcur, hget] at hkj'
                injection hkj' with hkk
                have := congrArg List.length hkk
                rw [List.length_append, List.length_replicate] at this
                omega
              · obtain ⟨r'', hr'', hlen''⟩ := hE hrc2 j rj hget
                rw [hkj] at hr''
                cases hr''
                rw [List.length_append, List.length_replicate] at hlen''
                omega
          case hF04 =>
            intro hMc
            exact absurd hMc (by omega)
          case hF4 =>
            intro hMc
            exact absurd hMc (by omega)
          case hG4 =>
            rw [take_succ_of_get? hr, maxNonPassLen_concat, if_neg hrl_ne1, ← hG,
              hMeq]
            omega

end Columnize

namespace Columnize

/-- Claim C8 as amended: provided every input row has at least one field,
after normalization every row is its original plus empty-string right
padding, every non-passthrough row (original length not 1) holds exactly C
fields where C is the maximum field count over non-passthrough rows, and
the running maximum of the scan never decreases from any state.  (In the
source the padded rows are the caller's own list objects: line 165 binds
the working list to input_data without copying and line 243 appends in
place, so the padding is observable to callers holding references; the
model exposes this shared result as the returned row list.) -/
theorem c8_normalization_invariant (R : List (List String))
    (hne : ∀ r ∈ R, r ≠ []) :
    (∀ i r, R.get? i = some r →
      ∃ r', (normalizeRows R).2.2.get? i = some r' ∧
        (∃ k, r' = r ++ List.replicate k ("")) ∧
        (r.length ≠ 1 → r'.length = (normalizeRows R).2.1)) ∧
    (normalizeRows R).2.1 = maxNonPassLen R ∧
    (∀ (idxs : List Nat) (rows : List (List String)) (cm rc : Nat),
      cm ≤ (normGo idxs rows cm rc).2.1) := by
  have h := normGo_inv R hne R.length 0 R 0 0 (by omega)
    (fun j r hget => ⟨0, by simpa using hget⟩)
    (fun j r hj => absurd hj (by omega))
    (fun _ => rfl) (Or.inl rfl)
    (fun h2 => absurd h2 (by decide))
    (fun _ => rfl)
    (fun _ j r hj => absurd hj (by omega))
    rfl
  exact ⟨h.1, h.2, normGo_cm_mono⟩

/-- Claim C8 witness: on the nonempty-row input with rows of lengths 2 and
3, the resolved column count equals the non-passthrough maximum 3, and the
running maximum 2 does not shrink on the empty scan. -/
theorem c8_witness :
    (normalizeRows [["a","b"],["d","e","f"]]).2.1
      = maxNonPassLen [["a","b"],["d","e","f"]] ∧
    (2 : Nat) ≤ (normGo [] [] 2 0).2.1 := by
  have h := c8_normalization_invariant [["a","b"],["d","e","f"]] (by decide)
  exact ⟨h.2.1, h.2.2 [] [] 2 0⟩

end Columnize
